import Mathlib

/-!
Verification development for the Taz expression-evaluation library.

The Rust source is shallowly embedded in Lean:
* `f64` values are modelled by `ℚ` with exact arithmetic; the binary
  floating-point constants `std::f64::consts::PI`, `E` and `FRAC_PI_2` are
  embedded as the exact rational values of those `f64` bit patterns, so the
  `%`-based domain guard of `tan` is modelled exactly.  Rounding of `+ - * /`
  is abstracted away (all concrete inputs used below are exactly
  representable), and the transcendental library calls (`sqrt`, `sin`, …,
  `powf`) are fields of an explicit table `RealFuns` passed to the functions
  that apply them, because their numeric values never matter for the
  properties proved here — only the domain-check structure does.
* Fallible Rust functions returning `Result<_, String>` become
  `Except String _`.
* The unguarded vector indexing `stack_operand[0]` at the end of
  `postfix_evaluation` (a Rust panic when the stack is empty) is modelled by
  a dedicated result constructor `EvalResult.panic`.
-/

namespace Taz

/-! ## Numeric model -/

/-- Exact value of the `f64` constant `std::f64::consts::PI`
(bit pattern `0x400921FB54442D18`). -/
def PI : ℚ := 884279719003555 / 281474976710656

/-- Exact value of the `f64` constant `std::f64::consts::E`
(bit pattern `0x4005BF0A8B145769`). -/
def E : ℚ := 6121026514868073 / 2251799813685248

/-- The constant `C = 299792458.0` from `constants.rs`. -/
def C : ℚ := 299792458

/-- Exact value of the `f64` constant `std::f64::consts::FRAC_PI_2`; halving
is exact in binary floating point, so this is exactly `PI / 2`. -/
def FRAC_PI_2 : ℚ := 884279719003555 / 562949953421312

/-- Truncation toward zero, as used by Rust's `f64` remainder operator. -/
def qtrunc (q : ℚ) : ℤ := if 0 ≤ q then ⌊q⌋ else ⌈q⌉

/-- Rust's `%` on `f64` (`fmod`): remainder with the dividend's sign,
`a - b * trunc(a / b)`.  `fmod` on finite floats is exact, so the rational
model agrees with the `f64` computation on exactly-represented inputs. -/
def rustRem (a b : ℚ) : ℚ := a - b * (qtrunc (a / b) : ℚ)

/-- Table of the transcendental `f64` library functions used by the source.
Their numeric behaviour is left abstract: every theorem below holds for an
arbitrary table, and concrete runs use `mathR`. -/
structure RealFuns where
  sqrt : ℚ → ℚ
  cbrt : ℚ → ℚ
  exp : ℚ → ℚ
  ln : ℚ → ℚ
  log10 : ℚ → ℚ
  log2 : ℚ → ℚ
  sin : ℚ → ℚ
  cos : ℚ → ℚ
  tan : ℚ → ℚ
  asin : ℚ → ℚ
  acos : ℚ → ℚ
  atan : ℚ → ℚ
  sinh : ℚ → ℚ
  cosh : ℚ → ℚ
  tanh : ℚ → ℚ
  asinh : ℚ → ℚ
  acosh : ℚ → ℚ
  atanh : ℚ → ℚ
  powf : ℚ → ℚ → ℚ

/-- Integer power on `ℚ` (with `0⁻¹ = 0` at the unreachable pole). -/
def qzpow (a : ℚ) (n : ℤ) : ℚ := if 0 ≤ n then a ^ n.toNat else (a ^ (-n).toNat)⁻¹

/-- Concrete model table used for concrete evaluations.  Only `powf` at
integral exponents is ever exercised by the concrete theorems below, where
`f64::powf` is exact and agrees with the integer power. -/
def mathR : RealFuns where
  sqrt := fun _ => 0
  cbrt := fun _ => 0
  exp := fun _ => 0
  ln := fun _ => 0
  log10 := fun _ => 0
  log2 := fun _ => 0
  sin := fun _ => 0
  cos := fun _ => 0
  tan := fun _ => 0
  asin := fun _ => 0
  acos := fun _ => 0
  atan := fun _ => 0
  sinh := fun _ => 0
  cosh := fun _ => 0
  tanh := fun _ => 0
  asinh := fun _ => 0
  acosh := fun _ => 0
  atanh := fun _ => 0
  powf := fun a b => if b.den = 1 then qzpow a b.num else 0

/-! ## `operators.rs` -/

/-- `enum BinaryOperator` from `operators.rs`. -/
inductive BinaryOperator where
  | Plus
  | Minus
  | Multiply
  | Divide
  | Power
  deriving DecidableEq, Repr

namespace BinaryOperator

/-- `BinaryOperator::from_char`. -/
def from_char (ops : Char) : Except String BinaryOperator :=
  if ops = '+' then .ok .Plus
  else if ops = '-' then .ok .Minus
  else if ops = '*' then .ok .Multiply
  else if ops = '/' then .ok .Divide
  else if ops = '^' then .ok .Power
  else .error "Unknown operator characters"

/-- `BinaryOperator::is_ops`. -/
def is_ops (ops : Char) : Bool :=
  ops = '+' || ops = '-' || ops = '*' || ops = '/' || ops = '^'

/-- `BinaryOperator::precedence`. -/
def precedence : BinaryOperator → Nat
  | .Plus => 2
  | .Minus => 2
  | .Multiply => 3
  | .Divide => 3
  | .Power => 4

/-- `BinaryOperator::is_left_associative`. -/
def is_left_associative : BinaryOperator → Bool
  | .Plus => true
  | .Minus => true
  | .Multiply => true
  | .Divide => true
  | .Power => false

/-- `BinaryOperator::apply`: division checks that the right operand is
non-null; `powf` is taken from the transcendental table. -/
def apply (R : RealFuns) : BinaryOperator → ℚ → ℚ → Except String ℚ
  | .Plus, left_operand, right_operand => .ok (left_operand + right_operand)
  | .Minus, left_operand, right_operand => .ok (left_operand - right_operand)
  | .Multiply, left_operand, right_operand => .ok (left_operand * right_operand)
  | .Divide, left_operand, right_operand =>
      if right_operand ≠ 0 then .ok (left_operand / right_operand)
      else .error "Division by zero"
  | .Power, left_operand, right_operand => .ok (R.powf left_operand right_operand)

end BinaryOperator

/-- `enum UnaryOperator` from `operators.rs`. -/
inductive UnaryOperator where
  | Plus
  | Minus
  deriving DecidableEq, Repr

namespace UnaryOperator

/-- `UnaryOperator::from_char`. -/
def from_char (ops : Char) : Except String UnaryOperator :=
  if ops = '+' then .ok .Plus
  else if ops = '-' then .ok .Minus
  else .error "Unknown operator characters"

/-- `UnaryOperator::is_ops`. -/
def is_ops (ops : Char) : Bool := ops = '+' || ops = '-'

/-- `UnaryOperator::apply`. -/
def apply : UnaryOperator → ℚ → ℚ
  | .Plus, operand => operand
  | .Minus, operand => -operand

end UnaryOperator

/-! ## `functions.rs` -/

/-- `enum Function` from `functions.rs`. -/
inductive Function where
  | Abs
  | Sqrt
  | Cbrt
  | Exp
  | Ln
  | Log10
  | Log2
  | Sin
  | Cos
  | Tan
  | Asin
  | Acos
  | Atan
  | Sinh
  | Cosh
  | Tanh
  | Asinh
  | Acosh
  | Atanh
  deriving DecidableEq, Repr

namespace Function

/-- `Function::from_string`. -/
def from_string (fn : String) : Except String Function :=
  if fn = "abs" then .ok .Abs
  else if fn = "sqrt" then .ok .Sqrt
  else if fn = "cbrt" then .ok .Cbrt
  else if fn = "exp" then .ok .Exp
  else if fn = "ln" then .ok .Ln
  else if fn = "log10" then .ok .Log10
  else if fn = "log2" then .ok .Log2
  else if fn = "sin" then .ok .Sin
  else if fn = "cos" then .ok .Cos
  else if fn = "tan" then .ok .Tan
  else if fn = "asin" then .ok .Asin
  else if fn = "acos" then .ok .Acos
  else if fn = "atan" then .ok .Atan
  else if fn = "sinh" then .ok .Sinh
  else if fn = "cosh" then .ok .Cosh
  else if fn = "tanh" then .ok .Tanh
  else if fn = "asinh" then .ok .Asinh
  else if fn = "acosh" then .ok .Acosh
  else if fn = "atanh" then .ok .Atanh
  else .error "Unknown function string"

/-- `Function::is_fun`. -/
def is_fun (fn : String) : Bool :=
  fn = "abs" || fn = "sqrt" || fn = "cbrt" || fn = "exp" || fn = "ln" ||
  fn = "log10" || fn = "log2" || fn = "sin" || fn = "cos" || fn = "tan" ||
  fn = "asin" || fn = "acos" || fn = "atan" || fn = "sinh" || fn = "cosh" ||
  fn = "tanh" || fn = "asinh" || fn = "acosh" || fn = "atanh"

/-- `Function::apply`: the domain guards are translated literally from
`functions.rs`; in-domain results come from the transcendental table
(`abs` is exact on floats and is modelled by the exact `|·|`). -/
def apply (R : RealFuns) : Function → ℚ → Except String ℚ
  | .Abs, arg => .ok |arg|
  | .Sqrt, arg =>
      if 0 ≤ arg then .ok (R.sqrt arg)
      else .error "Argument of sqrt function is negative"
  | .Cbrt, arg => .ok (R.cbrt arg)
  | .Exp, arg => .ok (R.exp arg)
  | .Ln, arg =>
      if 0 < arg then .ok (R.ln arg)
      else .error "Argument of ln function is negative or null"
  | .Log10, arg =>
      if 0 < arg then .ok (R.log10 arg)
      else .error "Argument of log10 function is negative or null"
  | .Log2, arg =>
      if 0 < arg then .ok (R.log2 arg)
      else .error "Argument of log2 function is negative or null"
  | .Sin, arg => .ok (R.sin arg)
  | .Cos, arg => .ok (R.cos arg)
  | .Tan, arg =>
      if rustRem (arg - FRAC_PI_2) PI ≠ 0 then .ok (R.tan arg)
      else .error "Argument of tan function is not valid"
  | .Asin, arg =>
      if -1 ≤ arg ∧ arg ≤ 1 then .ok (R.asin arg)
      else .error "Argument of asin function is not containing in [-1, 1]"
  | .Acos, arg =>
      if -1 ≤ arg ∧ arg ≤ 1 then .ok (R.acos arg)
      else .error "Argument of acos function is not containing in [-1, 1]"
  | .Atan, arg => .ok (R.atan arg)
  | .Sinh, arg => .ok (R.sinh arg)
  | .Cosh, arg => .ok (R.cosh arg)
  | .Tanh, arg => .ok (R.tanh arg)
  | .Asinh, arg => .ok (R.asinh arg)
  | .Acosh, arg => .ok (R.acosh arg)
  | .Atanh, arg => .ok (R.atanh arg)

end Function

/-! ## `constants.rs` -/

/-- `constants::is_constant`. -/
def is_constant (constant : String) : Bool :=
  constant = "pi" || constant = "e" || constant = "c"

/-- `constants::from_string`. -/
def constantFromString (constant : String) : Except String ℚ :=
  if constant = "pi" then .ok PI
  else if constant = "e" then .ok E
  else if constant = "c" then .ok C
  else .error "Unknown constant string"

/-! ## `token/mod.rs` — the token model

One Lean type covers the token enums of all snapshots in the repository:
the batch pipeline's `Token` (`token.rs`, without control values) and the
streaming pipeline's `Token` (`token/mod.rs` plus the `Stop` sentinel used
by `expression/`).  The batch functions are only ever applied to tokens
without `Empty`/`Stop`; theorems about them carry that hypothesis where it
matters. -/
inductive Token where
  | Empty
  | Stop
  | Number (value : ℚ)
  | BinaryOperator (ops : BinaryOperator)
  | UnaryOperator (ops : UnaryOperator)
  | LeftParenthesis
  | RightParenthesis
  | Constant (value : ℚ)
  | Function (fn : Function)
  deriving DecidableEq, Repr

namespace Token

/-- `Token::new_number`. -/
def new_number (value : ℚ) : Token := .Number value

/-- `Token::new_binary_ops`. -/
def new_binary_ops (ops : Char) : Except String Token :=
  (BinaryOperator.from_char ops).map .BinaryOperator

/-- `Token::new_unary_ops`. -/
def new_unary_ops (ops : Char) : Except String Token :=
  (UnaryOperator.from_char ops).map .UnaryOperator

/-- `Token::new_constant`. -/
def new_constant (constant : String) : Except String Token :=
  (constantFromString constant).map .Constant

/-- `Token::new_function`. -/
def new_function (fun_name : String) : Except String Token :=
  (Function.from_string fun_name).map .Function

end Token

/-- The token is neither of the control sentinels, i.e. it belongs to the
seven-variant token enum of the batch pipeline (`token.rs`). -/
def noControl (ts : List Token) : Prop :=
  ∀ t ∈ ts, t ≠ Token.Empty ∧ t ≠ Token.Stop

instance : DecidablePred noControl := fun ts => by
  unfold noControl; infer_instance

/-! ## `converter.rs` -/

/-- `last_operator_is_primary` from `converter.rs`. -/
def last_operator_is_primary (token_ops : Token) (current_ops : BinaryOperator) : Bool :=
  match token_ops with
  | .UnaryOperator _ => true
  | .BinaryOperator last_ops =>
      let last_precedence := last_ops.precedence
      let current_precedence := current_ops.precedence
      let is_primary := decide (last_precedence > current_precedence)
      let is_left_associativity :=
        decide (last_precedence = current_precedence) && current_ops.is_left_associative
      is_primary || is_left_associativity
  | _ => false

/-- State of the shunting-yard loop: the output being built and the
pending-operator stack.  The stack head is the stack top (Rust pushes and
pops at the `Vec`'s end). -/
structure ConvState where
  out : List Token
  stack : List Token
  deriving DecidableEq, Repr

/-- The `while let` loop of the `BinaryOperator` arm: pop stack entries
while the top is primary relative to `ops`.  Returns the popped entries (in
pop order) and the remaining stack. -/
def popPrimary (ops : BinaryOperator) : List Token → List Token × List Token
  | [] => ([], [])
  | t :: rest =>
      if last_operator_is_primary t ops then
        (t :: (popPrimary ops rest).1, (popPrimary ops rest).2)
      else ([], t :: rest)

/-- The `while let` loop of the `RightParenthesis` arm: pop stack entries
(in pop order) until a `LeftParenthesis` is on top or the stack empties. -/
def popToParen : List Token → List Token × List Token
  | [] => ([], [])
  | t :: rest =>
      if t = Token.LeftParenthesis then ([], t :: rest)
      else (t :: (popToParen rest).1, (popToParen rest).2)

/-- One iteration of the `for token in tokens` loop of `infix_to_postfix`.
The `Empty`/`Stop` arms do not exist in the Rust batch pipeline (its token
enum has no such constructors); they are modelled as no-ops and are dead
under the `noControl` hypotheses used below. -/
def convStep (s : ConvState) : Token → Except String ConvState
  | .Number v => .ok { s with out := s.out ++ [Token.Number v] }
  | .Constant v => .ok { s with out := s.out ++ [Token.Constant v] }
  | .BinaryOperator ops =>
      .ok ⟨s.out ++ (popPrimary ops s.stack).1,
           Token.BinaryOperator ops :: (popPrimary ops s.stack).2⟩
  | .UnaryOperator ops => .ok { s with stack := Token.UnaryOperator ops :: s.stack }
  | .Function fn => .ok { s with stack := Token.Function fn :: s.stack }
  | .LeftParenthesis => .ok { s with stack := Token.LeftParenthesis :: s.stack }
  | .RightParenthesis =>
      match (popToParen s.stack).2 with
      | [] => .error "Mismatched parenthesis"
      | _ :: afterParen =>
          -- the head of the remainder is the matched `LeftParenthesis`; discard
          -- it, then pop a function if one is now on top
          match afterParen with
          | Token.Function fn :: rest2 =>
              .ok ⟨s.out ++ (popToParen s.stack).1 ++ [Token.Function fn], rest2⟩
          | _ => .ok ⟨s.out ++ (popToParen s.stack).1, afterParen⟩
  | .Empty => .ok s
  | .Stop => .ok s

/-- The `for` loop of `infix_to_postfix` over the whole token sequence. -/
def convRun (s : ConvState) : List Token → Except String ConvState
  | [] => .ok s
  | t :: ts =>
      match convStep s t with
      | .error m => .error m
      | .ok s2 => convRun s2 ts

/-- `infix_to_postfix` from `converter.rs`: run the loop from empty state,
then flush the remaining stack (failing if it still holds a
`LeftParenthesis`).  Reversing the Rust `Vec` before splicing appends the
stack in top-first order, which is exactly the head-first stack list. -/
def infixToPostfix (tokens : List Token) : Except String (List Token) :=
  match convRun ⟨[], []⟩ tokens with
  | .error m => .error m
  | .ok s =>
      if s.stack = [] then .ok s.out
      else if Token.LeftParenthesis ∈ s.stack then .error "Mismatched parenthesis"
      else .ok (s.out ++ s.stack)

/-! ## `evaluator.rs` -/

/-- Outcome of `postfix_evaluation`: a value, an error message, or a Rust
panic (the unguarded `stack_operand[0]` on an empty operand stack). -/
inductive EvalResult where
  | ok (value : ℚ)
  | err (message : String)
  | panic
  deriving DecidableEq, Repr

/-- One iteration of the `for token in tokens` loop of
`postfix_evaluation`.  The operand-stack head is the stack top.  The final
catch-all arm is the `"Token non-accepted"` branch (grouping marks; in this
embedding it also covers the control sentinels absent from the Rust batch
token enum). -/
def evalStep (R : RealFuns) (stack_operand : List ℚ) :
    Token → Except String (List ℚ)
  | .Number number => .ok (number :: stack_operand)
  | .BinaryOperator ops =>
      match stack_operand with
      | [] => .error "Missing right operand to apply binary operation"
      | right :: rest =>
          match rest with
          | [] => .error "Missing left operand to apply binary operation"
          | left :: rest2 => (ops.apply R left right).map (· :: rest2)
  | .UnaryOperator ops =>
      match stack_operand with
      | [] => .error "Missing operand to apply unary operation"
      | number :: rest => .ok (ops.apply number :: rest)
  | .Function fn =>
      match stack_operand with
      | [] => .error "Missing argument to apply function"
      | arg :: rest => (fn.apply R arg).map (· :: rest)
  | .Constant constant => .ok (constant :: stack_operand)
  | _ => .error "Token non-accepted for evaluation of postfix expression"

/-- The `for` loop of `postfix_evaluation`. -/
def evalRun (R : RealFuns) (stack_operand : List ℚ) :
    List Token → Except String (List ℚ)
  | [] => .ok stack_operand
  | t :: ts =>
      match evalStep R stack_operand t with
      | .error m => .error m
      | .ok stack2 => evalRun R stack2 ts

/-- `postfix_evaluation` from `evaluator.rs`.  The final `Ok(stack_operand[0])`
indexes the operand stack without a guard: on an empty stack this is an
out-of-bounds `Vec` access, i.e. a panic. -/
def postfixEvaluation (R : RealFuns) (tokens : List Token) : EvalResult :=
  match evalRun R [] tokens with
  | .error m => .err m
  | .ok [] => .panic
  | .ok (value :: _) => .ok value

end Taz

namespace Taz

/-! ## `tokenizer.rs` — the batch tokenizer -/

/-- Character class collected by `extract_number` (digits and the dot). -/
def isNumChar (c : Char) : Bool := c.isDigit || c = '.'

/-- Character class collected by `extract_word` (alphanumerics and `_`). -/
def isWordChar (c : Char) : Bool := c.isAlphanum || c = '_'

/-- Numeric value of a digit run. -/
def digitsVal (cs : List Char) : Nat :=
  cs.foldl (fun a c => a * 10 + (c.toNat - '0'.toNat)) 0

/-- `str::parse::<f64>()` applied to the maximal digit/dot run collected by
`extract_number`, modelled exactly over `ℚ`: at most one dot, at least one
digit (`"1."`, `".5"`, `"12"` parse; `"."`, `"1..2"` fail).  Signs,
exponents and `inf`/`nan` spellings never reach this call because the run
only contains digits and dots. -/
def parseNum (cs : List Char) : Option ℚ :=
  let intPart := cs.takeWhile (fun c => c.isDigit)
  let rest := cs.dropWhile (fun c => c.isDigit)
  match rest with
  | [] => if intPart = [] then none else some (digitsVal intPart : ℚ)
  | c :: rest2 =>
      if c = '.' then
        if rest2.all (fun d => d.isDigit) then
          if intPart = [] ∧ rest2 = [] then none
          else some ((digitsVal intPart : ℚ) + (digitsVal rest2 : ℚ) / (10 ^ rest2.length : ℚ))
        else none
      else none

/-- The loop of `Tokenizer::next`/`tokenize` from `tokenizer.rs`, written as
a single recursion over the remaining characters together with the
`is_first_token` and `last_extracted_token` fields of the `Tokenizer`
state.  Whenever a `next` call would produce `Token::Empty` (end of input,
malformed literal, unknown operator character, unknown word, unknown
character) the iterator stops, so `collect` ends the list there: the
`error_occured` field of the Rust struct is never consulted, and the error
is silently swallowed.  `fuel` bounds the number of loop iterations; every
iteration consumes at least one character, so `length + 1` always
suffices. -/
def tokenizeLoop : Nat → List Char → Bool → Token → List Token
  | 0, _, _, _ => []
  | _ + 1, [], _, _ => []
  | fuel + 1, c :: cs, is_first_token, last_extracted_token =>
    if c.isWhitespace then tokenizeLoop fuel cs is_first_token last_extracted_token
    else if c.isDigit then
      match parseNum ((c :: cs).takeWhile isNumChar) with
      | some number =>
          Token.new_number number ::
            tokenizeLoop fuel ((c :: cs).dropWhile isNumChar) false (Token.new_number number)
      | none => []
    else if BinaryOperator.is_ops c || UnaryOperator.is_ops c then
      match (if is_first_token || last_extracted_token = Token.LeftParenthesis
             then Token.new_unary_ops c else Token.new_binary_ops c) with
      | .ok token_ops => token_ops :: tokenizeLoop fuel cs false token_ops
      | .error _ => []
    else if c = '(' then
      Token.LeftParenthesis :: tokenizeLoop fuel cs false Token.LeftParenthesis
    else if c = ')' then
      Token.RightParenthesis :: tokenizeLoop fuel cs false Token.RightParenthesis
    else if c.isAlphanum then
      let name := String.mk ((c :: cs).takeWhile isWordChar)
      let rest := (c :: cs).dropWhile isWordChar
      if is_constant name then
        match Token.new_constant name with
        | .ok token_constant => token_constant :: tokenizeLoop fuel rest false token_constant
        | .error _ => []
      else if Function.is_fun name then
        match Token.new_function name with
        | .ok token_fun => token_fun :: tokenizeLoop fuel rest false token_fun
        | .error _ => []
      else []
    else []

/-- `tokenize` from `tokenizer.rs`: `Ok(tokenizer.collect())` — note that it
returns `Ok` unconditionally. -/
def tokenize (expression : String) : Except String (List Token) :=
  .ok (tokenizeLoop (expression.data.length + 1) expression.data true Token.Empty)

/-! ## `expression/infix.rs` — the streaming tokenizer -/

/-- `Infix::next_token` from `expression/infix.rs`, over the remaining
characters and the `last_extracted_token`/`is_first_token` fields; returns
the produced `Result<Token, String>` together with the next state.  In the
whitespace-skip loop, reaching the end of input returns `Ok(Token::Stop)`
early, before the state-update statements. -/
def infixNextToken : List Char → Token → Bool →
    Except String Token × (List Char × Token × Bool)
  | [], _, _ => (.ok Token.Stop, ([], Token.Stop, false))
  | c :: cs, last_extracted_token, is_first_token =>
    if c.isWhitespace then
      match cs with
      | [] => (.ok Token.Stop, ([], last_extracted_token, is_first_token))
      | _ :: _ => infixNextToken cs last_extracted_token is_first_token
    else
      let step : Except String Token × List Char :=
        if c.isDigit then
          ((match parseNum ((c :: cs).takeWhile isNumChar) with
            | some number => .ok (Token.new_number number)
            | none => .error "invalid float literal"),
           (c :: cs).dropWhile isNumChar)
        else if BinaryOperator.is_ops c || UnaryOperator.is_ops c then
          ((if is_first_token || last_extracted_token = Token.LeftParenthesis
            then Token.new_unary_ops c else Token.new_binary_ops c), cs)
        else if c = '(' then (.ok Token.LeftParenthesis, cs)
        else if c = ')' then (.ok Token.RightParenthesis, cs)
        else if c.isAlphanum then
          let name := String.mk ((c :: cs).takeWhile isWordChar)
          ((if is_constant name then Token.new_constant name
            else if Function.is_fun name then Token.new_function name
            else .error ("The string " ++ name ++ " does not correspond to existing tokens")),
           (c :: cs).dropWhile isWordChar)
        else
          (.error ("The character " ++ String.singleton c ++
            " does not correspond to existing tokens"), c :: cs)
      (step.1,
       (step.2, (match step.1 with | .ok token => token | .error _ => Token.Stop), false))

/-- `collect_all_tokens` from `token_iterator.rs`, instantiated with the
`Infix` iterator: gather tokens until `Stop`, filtering `Empty` (which
`Infix` never produces), propagating the first error.  `fuel` bounds the
number of `next_token` calls; every token before `Stop` consumes at least
one character, so `length + 1` always suffices. -/
def collectAllTokens : Nat → List Char → Token → Bool → Except String (List Token)
  | 0, _, _, _ => .error "out of fuel"
  | fuel + 1, chars, last_extracted_token, is_first_token =>
    match infixNextToken chars last_extracted_token is_first_token with
    | (.error m, _) => .error m
    | (.ok token, (chars2, last2, first2)) =>
        if token = Token.Stop then .ok []
        else if token = Token.Empty then collectAllTokens fuel chars2 last2 first2
        else (collectAllTokens fuel chars2 last2 first2).map (token :: ·)

/-- Tokenization through the streaming pipeline:
`Infix::new(expression).collect_all_tokens()`. -/
def infixTokenize (expression : String) : Except String (List Token) :=
  collectAllTokens (expression.data.length + 1) expression.data Token.Empty true

/-! ## `lib.rs` -/

/-- `evaluate` from `lib.rs`: tokenize, convert to postfix, evaluate,
propagating the first error.  `lib.rs` calls a variable-aware
`tokenizer::tokenize(expression, variables)` whose definition is not part
of the sources; per the spec it runs the identical pipeline and consults
the variable map only for words that are neither constants nor functions.
No claim below involves variables, so it is modelled by the in-source
variable-free `tokenize`. -/
def evaluate (R : RealFuns) (expression : String) : EvalResult :=
  match tokenize expression with
  | .error message => .err message
  | .ok tokens =>
      match infixToPostfix tokens with
      | .error message => .err message
      | .ok posfix_tokens => postfixEvaluation R posfix_tokens

end Taz

namespace Taz

/-! ## Spec-side definitions

The following definitions are written from the specification's words, to be
compared with the source-derived functions above. -/

/-- Arithmetic expressions over numeric literals and the five binary
operators — the fragment of the grammar quantified over by the
precedence-correctness property. -/
inductive Expr where
  | num (value : ℚ)
  | bin (ops : BinaryOperator) (left right : Expr)
  deriving DecidableEq, Repr

/-- Reverse-Polish rendering of an expression: left operand, right operand,
operator. -/
def rpnOf : Expr → List Token
  | .num q => [Token.Number q]
  | .bin ops left right => rpnOf left ++ rpnOf right ++ [Token.BinaryOperator ops]

/-- Direct recursive evaluation of an expression: evaluate the left operand,
then the right, then apply the operator (with its division-by-zero check). -/
def directEval (R : RealFuns) : Expr → Except String ℚ
  | .num q => .ok q
  | .bin ops left right =>
      match directEval R left with
      | .error m => .error m
      | .ok a =>
          match directEval R right with
          | .error m => .error m
          | .ok b => ops.apply R a b

/-- Embed an `Except`-valued evaluation into `EvalResult`. -/
def toEvalResult : Except String ℚ → EvalResult
  | .ok v => .ok v
  | .error m => .err m

/-- `Parses l ts e`: the token sequence `ts` is a balanced infix expression
over numeric literals, parentheses and binary operators that parses, under
standard precedence, as the expression `e` when entered at precedence level
`l`.  Levels: `2` = additive expressions, `3` = multiplicative, `4` = power,
`5` = atoms.  `binL` builds left-associative chains (the left subphrase
stays at level `l`), `binR` the right-associative `^` chains (the right
subphrase stays at level `l`), matching the spec's associativity rules. -/
inductive Parses : Nat → List Token → Expr → Prop where
  | num (q : ℚ) : Parses 5 [Token.Number q] (.num q)
  | paren {ts e} :
      Parses 2 ts e →
      Parses 5 (Token.LeftParenthesis :: ts ++ [Token.RightParenthesis]) e
  | up {l ts e} : Parses (l + 1) ts e → Parses l ts e
  | binL {l ts1 e1 ts2 e2} (ops : BinaryOperator) :
      Parses l ts1 e1 →
      ops.precedence = l →
      ops.is_left_associative = true →
      Parses (l + 1) ts2 e2 →
      Parses l (ts1 ++ Token.BinaryOperator ops :: ts2) (.bin ops e1 e2)
  | binR {l ts1 e1 ts2 e2} (ops : BinaryOperator) :
      Parses (l + 1) ts1 e1 →
      ops.precedence = l →
      ops.is_left_associative = false →
      Parses l ts2 e2 →
      Parses l (ts1 ++ Token.BinaryOperator ops :: ts2) (.bin ops e1 e2)

/-- Parenthesis-balance check (the Dyck condition on the subsequence of
parenthesis tokens): scanning with a depth counter, a closing parenthesis
at depth zero or a positive final depth means the parentheses are
unmatched. -/
def parenBalanced : List Token → Nat → Bool
  | [], depth => depth = 0
  | Token.LeftParenthesis :: ts, depth => parenBalanced ts (depth + 1)
  | Token.RightParenthesis :: ts, depth => depth ≠ 0 && parenBalanced ts (depth - 1)
  | _ :: ts, depth => parenBalanced ts depth

/-- Prefix part of the balance check: no closing parenthesis ever arrives at
depth zero. -/
def parenPrefixOk : List Token → Nat → Bool
  | [], _ => true
  | Token.LeftParenthesis :: ts, depth => parenPrefixOk ts (depth + 1)
  | Token.RightParenthesis :: ts, depth => depth ≠ 0 && parenPrefixOk ts (depth - 1)
  | _ :: ts, depth => parenPrefixOk ts depth

/-- Final depth of the parenthesis scan. -/
def parenFinalDepth : List Token → Nat → Nat
  | [], depth => depth
  | Token.LeftParenthesis :: ts, depth => parenFinalDepth ts (depth + 1)
  | Token.RightParenthesis :: ts, depth => parenFinalDepth ts (depth - 1)
  | _ :: ts, depth => parenFinalDepth ts depth

/-- Number of `LeftParenthesis` tokens in a list. -/
def countLP : List Token → Nat
  | [] => 0
  | Token.LeftParenthesis :: ts => countLP ts + 1
  | _ :: ts => countLP ts

/-- The spec's domain table for function application (§4.3): the argument
values on which each function must fail. -/
def specFunDomainErr : Function → ℚ → Bool
  | .Sqrt, arg => arg < 0
  | .Ln, arg => arg ≤ 0
  | .Log10, arg => arg ≤ 0
  | .Log2, arg => arg ≤ 0
  | .Tan, arg => rustRem (arg - FRAC_PI_2) PI = 0
  | .Asin, arg => arg < -1 || 1 < arg
  | .Acos, arg => arg < -1 || 1 < arg
  | _, _ => false

/-- The spec's in-domain result for each function (the "mathematical
result", with library calls represented by the transcendental table). -/
def specFunValue (R : RealFuns) : Function → ℚ → ℚ
  | .Abs, arg => |arg|
  | .Sqrt, arg => R.sqrt arg
  | .Cbrt, arg => R.cbrt arg
  | .Exp, arg => R.exp arg
  | .Ln, arg => R.ln arg
  | .Log10, arg => R.log10 arg
  | .Log2, arg => R.log2 arg
  | .Sin, arg => R.sin arg
  | .Cos, arg => R.cos arg
  | .Tan, arg => R.tan arg
  | .Asin, arg => R.asin arg
  | .Acos, arg => R.acos arg
  | .Atan, arg => R.atan arg
  | .Sinh, arg => R.sinh arg
  | .Cosh, arg => R.cosh arg
  | .Tanh, arg => R.tanh arg
  | .Asinh, arg => R.asinh arg
  | .Acosh, arg => R.acosh arg
  | .Atanh, arg => R.atanh arg

/-- The spec's in-domain result for each binary operator. -/
def specBinValue (R : RealFuns) : BinaryOperator → ℚ → ℚ → ℚ
  | .Plus, a, b => a + b
  | .Minus, a, b => a - b
  | .Multiply, a, b => a * b
  | .Divide, a, b => a / b
  | .Power, a, b => R.powf a b

/-- Tokens allowed in a postfix sequence per the spec: numbers, constants,
operators and functions — no grouping marks. -/
def isOutputTok : Token → Bool
  | .Number _ => true
  | .Constant _ => true
  | .BinaryOperator _ => true
  | .UnaryOperator _ => true
  | .Function _ => true
  | _ => false

/-- Tokens the converter may hold on its pending stack: operators,
functions and left parentheses. -/
def isStackTok : Token → Bool
  | .BinaryOperator _ => true
  | .UnaryOperator _ => true
  | .Function _ => true
  | .LeftParenthesis => true
  | _ => false

/-- A `+`/`-` operator token (either unary or binary), i.e. a token
produced from one of the two sign glyphs. -/
def isSignTok : Token → Bool
  | .UnaryOperator _ => true
  | .BinaryOperator .Plus => true
  | .BinaryOperator .Minus => true
  | _ => false

/-- The unary-vs-binary disambiguation invariant of a produced token list:
relative to tokenizer state (`first`, `last`), each emitted sign token is
unary exactly when it is the first emission and the context allows a unary
(`first = true` or `last` is a left parenthesis), or when the previous
emitted token is a left parenthesis. -/
def SignsOk : Bool → Token → List Token → Prop
  | _, _, [] => True
  | first, last, t :: rest =>
      (isSignTok t = true →
        ((∃ u, t = Token.UnaryOperator u) ↔
          (first = true ∨ last = Token.LeftParenthesis))) ∧
      SignsOk false t rest

end Taz

namespace Taz

/-! ## Infrastructure lemmas -/

theorem convRun_append (s : ConvState) (xs ys : List Token) :
    convRun s (xs ++ ys) =
      match convRun s xs with
      | .error m => .error m
      | .ok s2 => convRun s2 ys := by
  induction xs generalizing s with
  | nil => simp [convRun]
  | cons t ts ih =>
      simp only [List.cons_append, convRun]
      cases convStep s t with
      | error m => rfl
      | ok s2 => exact ih s2

theorem evalRun_append (R : RealFuns) (stack : List ℚ) (xs ys : List Token) :
    evalRun R stack (xs ++ ys) =
      match evalRun R stack xs with
      | .error m => .error m
      | .ok stack2 => evalRun R stack2 ys := by
  induction xs generalizing stack with
  | nil => simp [evalRun]
  | cons t ts ih =>
      simp only [List.cons_append, evalRun]
      cases evalStep R stack t with
      | error m => rfl
      | ok stack2 => exact ih stack2

theorem popPrimary_eq (ops : BinaryOperator) (stk : List Token) :
    popPrimary ops stk =
      (stk.takeWhile (fun t => last_operator_is_primary t ops),
       stk.dropWhile (fun t => last_operator_is_primary t ops)) := by
  induction stk with
  | nil => rfl
  | cons t rest ih =>
      cases h : last_operator_is_primary t ops with
      | true => simp [popPrimary, h, ih, List.takeWhile_cons, List.dropWhile_cons]
      | false => simp [popPrimary, h, List.takeWhile_cons, List.dropWhile_cons]

/-! ## Claim theorems -/

/-- C4: when the converter meets a binary operator `op`, it pops stack
entries to the output exactly while the stack top is primary relative to
`op`; `primary` holds for a `UnaryOperator` top, and for a
`BinaryOperator` top exactly when its precedence is strictly greater, or
equal with `op` left-associative (and for no other token); and the
precedence/associativity tables are: Plus/Minus = 2, Multiply/Divide = 3,
Power = 4, with Power the only right-associative operator. -/
theorem claim4_primary_and_tables :
    (∀ (out stk : List Token) (ops : BinaryOperator),
      convStep ⟨out, stk⟩ (Token.BinaryOperator ops) =
        .ok ⟨out ++ stk.takeWhile (fun t => last_operator_is_primary t ops),
             Token.BinaryOperator ops ::
               stk.dropWhile (fun t => last_operator_is_primary t ops)⟩) ∧
    (∀ (u : UnaryOperator) (ops : BinaryOperator),
      last_operator_is_primary (Token.UnaryOperator u) ops = true) ∧
    (∀ (b ops : BinaryOperator),
      last_operator_is_primary (Token.BinaryOperator b) ops =
        (decide (ops.precedence < b.precedence) ||
         (decide (b.precedence = ops.precedence) && ops.is_left_associative))) ∧
    (∀ ops : BinaryOperator,
      last_operator_is_primary Token.LeftParenthesis ops = false) ∧
    (∀ (fn : Function) (ops : BinaryOperator),
      last_operator_is_primary (Token.Function fn) ops = false) ∧
    (∀ (q : ℚ) (ops : BinaryOperator),
      last_operator_is_primary (Token.Number q) ops = false) ∧
    BinaryOperator.Plus.precedence = 2 ∧ BinaryOperator.Minus.precedence = 2 ∧
    BinaryOperator.Multiply.precedence = 3 ∧ BinaryOperator.Divide.precedence = 3 ∧
    BinaryOperator.Power.precedence = 4 ∧
    BinaryOperator.Plus.is_left_associative = true ∧
    BinaryOperator.Minus.is_left_associative = true ∧
    BinaryOperator.Multiply.is_left_associative = true ∧
    BinaryOperator.Divide.is_left_associative = true ∧
    BinaryOperator.Power.is_left_associative = false := by
  refine ⟨?_, fun u ops => by cases u <;> cases ops <;> rfl,
    fun b ops => by cases b <;> cases ops <;> rfl,
    fun ops => by cases ops <;> rfl,
    fun fn ops => by cases ops <;> rfl,
    fun q ops => rfl,
    rfl, rfl, rfl, rfl, rfl, rfl, rfl, rfl, rfl, rfl⟩
  intro out stk ops
  simp [convStep, popPrimary_eq]

/-- C9: whenever executing a postfix token sequence leaves the operand
stack empty — in particular for the empty sequence, which is what an empty
or all-whitespace input tokenizes to — `postfix_evaluation`'s final
unguarded read of index 0 of the empty operand stack is an out-of-bounds
vector access (modelled as `EvalResult.panic`), not an `Err`; and this is
reachable through the public `evaluate` entry point. -/
theorem claim9_empty_stack_panic :
    (∀ (R : RealFuns) (ts : List Token),
      evalRun R [] ts = .ok [] → postfixEvaluation R ts = .panic) ∧
    (∀ R : RealFuns, postfixEvaluation R [] = .panic) ∧
    (∀ R : RealFuns, evaluate R "" = .panic) ∧
    (∀ R : RealFuns, evaluate R "   " = .panic) :=
  ⟨fun R ts h => by simp [postfixEvaluation, h],
   fun _ => rfl, fun _ => rfl, fun _ => rfl⟩

/-- Witness for C9 at the concrete empty sequence. -/
theorem claim9_empty_stack_panic_witness :
    evalRun mathR [] [] = .ok [] ∧ postfixEvaluation mathR [] = .panic :=
  ⟨rfl, claim9_empty_stack_panic.1 mathR [] rfl⟩

/-- C2 (code bug): `evaluate` on the empty string and on all-whitespace
input is not rejected with an `Err` before tokenization; the pipeline runs
to the evaluator, whose final `stack_operand[0]` read panics on the empty
operand stack. -/
theorem claim2_empty_input_panics :
    ∀ R : RealFuns, evaluate R "" = .panic ∧ evaluate R "   " = .panic :=
  fun _ => ⟨rfl, rfl⟩

/-- C7 (code bug): on the input `"2 + foo"`, whose word `foo` is an
unrecoverable lexical condition, the batch `tokenize` of `tokenizer.rs`
returns `Ok` with the partial token list covering only the prefix `"2 +"`
(its `error_occured` field is never consulted), while the streaming
`Infix`/`collect_all_tokens` tokenizer aborts with the error the claim
describes. -/
theorem claim7_tokenizer_swallows_error :
    tokenize "2 + foo" =
      .ok [Token.Number 2, Token.BinaryOperator BinaryOperator.Plus] ∧
    infixTokenize "2 + foo" =
      .error "The string foo does not correspond to existing tokens" :=
  ⟨rfl, rfl⟩

/-- C8 counterexample: the grammar of §6 admits a signed term after a
binary operator (`term := ["+"|"-"] primary`), but `"2 * -3"` is not
accepted by the pipeline: the `-` after `*` is lexed as a binary operator
and evaluation fails with a missing-operand syntax error. -/
theorem claim8_counterexample :
    evaluate mathR "2 * -3" = .err "Missing left operand to apply binary operation" :=
  rfl

end Taz

namespace Taz

/-- C8 amended: a signed term is accepted at expression start or
immediately after `(`, where the sign is lexed as a unary operator; written
with parentheses, `"2 * (-3)"` evaluates to `-6`, and a leading sign as in
`"-3 + 2"` evaluates to `-1`.  A sign directly after a binary operator, as
in `"2 * -3"`, is lexed as a binary operator and rejected with a
missing-operand error (see the counterexample). -/
theorem claim8_amended_signed_terms :
    evaluate mathR "2 * (-3)" = .ok (-6) ∧ evaluate mathR "-3 + 2" = .ok (-1) := by
  constructor
  · have ht : tokenize "2 * (-3)" = .ok
        [Token.Number 2, Token.BinaryOperator BinaryOperator.Multiply,
         Token.LeftParenthesis, Token.UnaryOperator UnaryOperator.Minus,
         Token.Number 3, Token.RightParenthesis] := rfl
    have hc : infixToPostfix
        [Token.Number 2, Token.BinaryOperator BinaryOperator.Multiply,
         Token.LeftParenthesis, Token.UnaryOperator UnaryOperator.Minus,
         Token.Number 3, Token.RightParenthesis] = .ok
        [Token.Number 2, Token.Number 3, Token.UnaryOperator UnaryOperator.Minus,
         Token.BinaryOperator BinaryOperator.Multiply] := rfl
    have he : postfixEvaluation mathR
        [Token.Number 2, Token.Number 3, Token.UnaryOperator UnaryOperator.Minus,
         Token.BinaryOperator BinaryOperator.Multiply] = .ok (-6) := by
      norm_num [postfixEvaluation, evalRun, evalStep, BinaryOperator.apply,
        UnaryOperator.apply, mathR, qzpow, Except.map]
    simp only [evaluate, ht, hc, he]
  · have ht : tokenize "-3 + 2" = .ok
        [Token.UnaryOperator UnaryOperator.Minus, Token.Number 3,
         Token.BinaryOperator BinaryOperator.Plus, Token.Number 2] := rfl
    have hc : infixToPostfix
        [Token.UnaryOperator UnaryOperator.Minus, Token.Number 3,
         Token.BinaryOperator BinaryOperator.Plus, Token.Number 2] = .ok
        [Token.Number 3, Token.UnaryOperator UnaryOperator.Minus, Token.Number 2,
         Token.BinaryOperator BinaryOperator.Plus] := rfl
    have he : postfixEvaluation mathR
        [Token.Number 3, Token.UnaryOperator UnaryOperator.Minus, Token.Number 2,
         Token.BinaryOperator BinaryOperator.Plus] = .ok (-1) := by
      norm_num [postfixEvaluation, evalRun, evalStep, BinaryOperator.apply,
        UnaryOperator.apply, mathR, qzpow, Except.map]
    simp only [evaluate, ht, hc, he]

end Taz

namespace Taz

/-! ## Parenthesis-balance lemmas (C3) -/

theorem countLP_takeWhile_primary (ops : BinaryOperator) (stk : List Token) :
    countLP (stk.takeWhile (fun t => last_operator_is_primary t ops)) = 0 := by
  induction stk with
  | nil => rfl
  | cons t rest ih =>
      rw [List.takeWhile_cons]
      cases h : last_operator_is_primary t ops with
      | false => rfl
      | true =>
          cases t <;> simp_all [countLP, last_operator_is_primary]

theorem countLP_append (xs ys : List Token) :
    countLP (xs ++ ys) = countLP xs + countLP ys := by
  induction xs with
  | nil => simp [countLP]
  | cons t rest ih =>
      cases t <;> simp [countLP, ih]
      omega

theorem countLP_popPrimary (ops : BinaryOperator) (stk : List Token) :
    countLP (popPrimary ops stk).2 = countLP stk := by
  rw [popPrimary_eq]
  conv_rhs => rw [← List.takeWhile_append_dropWhile
    (p := fun t => last_operator_is_primary t ops) (l := stk)]
  rw [countLP_append, countLP_takeWhile_primary]
  simp

theorem popToParen_spec (stk : List Token) :
    ((popToParen stk).2 = [] ∧ countLP stk = 0) ∨
    (∃ rest, (popToParen stk).2 = Token.LeftParenthesis :: rest ∧
      countLP stk = countLP rest + 1) := by
  induction stk with
  | nil => exact Or.inl ⟨rfl, rfl⟩
  | cons t rest ih =>
      by_cases h : t = Token.LeftParenthesis
      · subst h
        exact Or.inr ⟨rest, by simp [popToParen], by simp [countLP]⟩
      · have hstep : (popToParen (t :: rest)).2 = (popToParen rest).2 := by
          simp [popToParen, h]
        have hcount : countLP (t :: rest) = countLP rest := by
          cases t <;> simp_all [countLP]
        rcases ih with ⟨h1, h2⟩ | ⟨r, h1, h2⟩
        · exact Or.inl ⟨by rw [hstep, h1], by rw [hcount, h2]⟩
        · exact Or.inr ⟨r, by rw [hstep, h1], by rw [hcount, h2]⟩

theorem convStep_error (s : ConvState) (t : Token) (m : String)
    (h : convStep s t = .error m) : m = "Mismatched parenthesis" := by
  cases t <;> simp [convStep] at h
  rcases hp : (popToParen s.stack).2 with _ | ⟨t2, afterParen⟩ <;> rw [hp] at h
  · simp at h
    exact h.symm
  · rcases afterParen with _ | ⟨t3, rest2⟩
    · simp at h
    · cases t3 <;> simp at h

theorem convRun_error (ts : List Token) (s : ConvState) (m : String)
    (h : convRun s ts = .error m) : m = "Mismatched parenthesis" := by
  induction ts generalizing s with
  | nil => simp [convRun] at h
  | cons t rest ih =>
      simp only [convRun] at h
      cases hs : convStep s t with
      | error m2 =>
          rw [hs] at h
          simp at h
          rw [← h]
          exact convStep_error s t m2 hs
      | ok s2 =>
          rw [hs] at h
          exact ih s2 h

theorem infixToPostfix_error (ts : List Token) (m : String)
    (h : infixToPostfix ts = .error m) : m = "Mismatched parenthesis" := by
  unfold infixToPostfix at h
  cases hr : convRun ⟨[], []⟩ ts with
  | error m2 =>
      rw [hr] at h
      simp at h
      rw [← h]
      exact convRun_error ts ⟨[], []⟩ m2 hr
  | ok s =>
      rw [hr] at h
      by_cases h1 : s.stack = [] <;> simp [h1] at h
      by_cases h2 : Token.LeftParenthesis ∈ s.stack <;> simp [h2] at h
      exact h.symm

theorem countLP_eq_zero_iff (stk : List Token) :
    countLP stk = 0 ↔ Token.LeftParenthesis ∉ stk := by
  induction stk with
  | nil => simp [countLP]
  | cons t rest ih =>
      cases t <;> simp [countLP, ih]

theorem convStep_countLP_LP (s s2 : ConvState)
    (h : convStep s Token.LeftParenthesis = .ok s2) :
    countLP s2.stack = countLP s.stack + 1 := by
  simp [convStep] at h
  rw [← h]
  simp [countLP]

theorem convStep_countLP_RP (s s2 : ConvState)
    (h : convStep s Token.RightParenthesis = .ok s2) :
    countLP s.stack ≠ 0 ∧ countLP s2.stack = countLP s.stack - 1 := by
  rcases popToParen_spec s.stack with ⟨hp, hz⟩ | ⟨rest, hp, hc⟩
  · simp [convStep, hp] at h
  · refine ⟨by omega, ?_⟩
    simp only [convStep] at h
    rw [hp] at h
    rcases hrest : rest with _ | ⟨t3, rest2⟩
    · rw [hrest] at h
      simp at h
      rw [← h]
      rw [hrest] at hc
      simp [countLP] at hc ⊢
      omega
    · rw [hrest] at hc
      rw [hrest] at h
      cases t3 <;> simp at h <;> rw [← h] <;> simp [countLP] at hc ⊢ <;> omega

theorem convStep_countLP_other (s s2 : ConvState) (t : Token)
    (h1 : t ≠ Token.LeftParenthesis) (h2 : t ≠ Token.RightParenthesis)
    (h : convStep s t = .ok s2) :
    countLP s2.stack = countLP s.stack := by
  cases t with
  | LeftParenthesis => exact absurd rfl h1
  | RightParenthesis => exact absurd rfl h2
  | Number q => simp [convStep] at h; rw [← h]
  | Constant q => simp [convStep] at h; rw [← h]
  | Empty => simp [convStep] at h; rw [← h]
  | Stop => simp [convStep] at h; rw [← h]
  | UnaryOperator ops => simp [convStep] at h; rw [← h]; simp [countLP]
  | Function fn => simp [convStep] at h; rw [← h]; simp [countLP]
  | BinaryOperator ops =>
      simp [convStep] at h
      rw [← h]
      simpa [countLP] using countLP_popPrimary ops s.stack

theorem convRun_paren (ts : List Token) (s s2 : ConvState)
    (h : convRun s ts = .ok s2) :
    parenPrefixOk ts (countLP s.stack) = true ∧
    countLP s2.stack = parenFinalDepth ts (countLP s.stack) := by
  induction ts generalizing s with
  | nil =>
      simp [convRun] at h
      subst h
      exact ⟨rfl, rfl⟩
  | cons t rest ih =>
      simp only [convRun] at h
      cases hs : convStep s t with
      | error m => rw [hs] at h; simp at h
      | ok smid =>
          rw [hs] at h
          obtain ⟨hpre, hfin⟩ := ih smid h
          cases t with
          | LeftParenthesis =>
              rw [convStep_countLP_LP s smid hs] at hpre hfin
              exact ⟨hpre, by simpa [parenFinalDepth] using hfin⟩
          | RightParenthesis =>
              obtain ⟨hne, heq⟩ := convStep_countLP_RP s smid hs
              rw [heq] at hpre hfin
              refine ⟨?_, by simpa [parenFinalDepth] using hfin⟩
              simpa [parenPrefixOk, hne] using hpre
          | Number q =>
              rw [convStep_countLP_other s smid _ (by simp) (by simp) hs] at hpre hfin
              exact ⟨hpre, hfin⟩
          | Constant q =>
              rw [convStep_countLP_other s smid _ (by simp) (by simp) hs] at hpre hfin
              exact ⟨hpre, hfin⟩
          | BinaryOperator ops =>
              rw [convStep_countLP_other s smid _ (by simp) (by simp) hs] at hpre hfin
              exact ⟨hpre, hfin⟩
          | UnaryOperator ops =>
              rw [convStep_countLP_other s smid _ (by simp) (by simp) hs] at hpre hfin
              exact ⟨hpre, hfin⟩
          | Function fn =>
              rw [convStep_countLP_other s smid _ (by simp) (by simp) hs] at hpre hfin
              exact ⟨hpre, hfin⟩
          | Empty =>
              rw [convStep_countLP_other s smid _ (by simp) (by simp) hs] at hpre hfin
              exact ⟨hpre, hfin⟩
          | Stop =>
              rw [convStep_countLP_other s smid _ (by simp) (by simp) hs] at hpre hfin
              exact ⟨hpre, hfin⟩

theorem parenBalanced_split (ts : List Token) (depth : Nat) :
    parenBalanced ts depth =
      (parenPrefixOk ts depth && decide (parenFinalDepth ts depth = 0)) := by
  induction ts generalizing depth with
  | nil => simp [parenBalanced, parenPrefixOk, parenFinalDepth]
  | cons t rest ih =>
      cases t <;>
        simp [parenBalanced, parenPrefixOk, parenFinalDepth, ih, Bool.and_assoc]

theorem infixToPostfix_ok_balanced (ts : List Token) (out : List Token)
    (h : infixToPostfix ts = .ok out) : parenBalanced ts 0 = true := by
  unfold infixToPostfix at h
  cases hr : convRun ⟨[], []⟩ ts with
  | error m => rw [hr] at h; simp at h
  | ok s =>
      rw [hr] at h
      obtain ⟨hpre, hfin⟩ := convRun_paren ts ⟨[], []⟩ s hr
      have hzero : countLP s.stack = 0 := by
        by_cases h1 : s.stack = []
        · rw [h1]; rfl
        · simp [h1] at h
          by_cases h2 : Token.LeftParenthesis ∈ s.stack
          · simp [h2] at h
          · exact (countLP_eq_zero_iff s.stack).mpr h2
      rw [parenBalanced_split]
      have : parenFinalDepth ts (countLP (⟨[], []⟩ : ConvState).stack) = 0 := by
        rw [← hfin, hzero]
      simp only [countLP] at hpre this
      simp [hpre, this]

/-- C3: every infix token sequence with unbalanced parentheses (a closing
parenthesis at depth zero, or a positive final depth) makes
`infix_to_postfix` return `Err("Mismatched parenthesis")`: a
`RightParenthesis` that empties the pending stack without finding a
`LeftParenthesis` fails, and a `LeftParenthesis` remaining on the stack at
end of input fails. -/
theorem claim3_mismatched_parenthesis (ts : List Token)
    (_hts : noControl ts) (hbal : parenBalanced ts 0 = false) :
    infixToPostfix ts = .error "Mismatched parenthesis" := by
  cases h : infixToPostfix ts with
  | ok out =>
      rw [infixToPostfix_ok_balanced ts out h] at hbal
      cases hbal
  | error m =>
      rw [infixToPostfix_error ts m h]

/-- Witness for C3: the lone `)` is rejected. -/
theorem claim3_mismatched_parenthesis_witness :
    noControl [Token.RightParenthesis] ∧
    parenBalanced [Token.RightParenthesis] 0 = false ∧
    infixToPostfix [Token.RightParenthesis] = .error "Mismatched parenthesis" :=
  ⟨by decide, by decide,
   claim3_mismatched_parenthesis [Token.RightParenthesis] (by decide) (by decide)⟩

end Taz

namespace Taz

theorem popToParen_eq (stk : List Token) :
    popToParen stk =
      (stk.takeWhile (fun t => decide (t ≠ Token.LeftParenthesis)),
       stk.dropWhile (fun t => decide (t ≠ Token.LeftParenthesis))) := by
  induction stk with
  | nil => rfl
  | cons t rest ih =>
      by_cases h : t = Token.LeftParenthesis
      · subst h
        simp [popToParen, List.takeWhile_cons, List.dropWhile_cons]
      · simp [popToParen, h, ih, List.takeWhile_cons, List.dropWhile_cons]

theorem primary_isOutputTok (t : Token) (ops : BinaryOperator)
    (h : last_operator_is_primary t ops = true) : isOutputTok t = true := by
  cases t <;> simp_all [last_operator_is_primary, isOutputTok]

theorem stackTok_ne_LP_isOutputTok (t : Token) (hs : isStackTok t = true)
    (hne : t ≠ Token.LeftParenthesis) : isOutputTok t = true := by
  cases t <;> simp_all [isStackTok, isOutputTok]

theorem convStep_inv (s s2 : ConvState) (t : Token)
    (ht : t ≠ Token.Empty ∧ t ≠ Token.Stop)
    (hstk : ∀ x ∈ s.stack, isStackTok x = true)
    (hout : ∀ x ∈ s.out, isOutputTok x = true)
    (h : convStep s t = .ok s2) :
    (∀ x ∈ s2.stack, isStackTok x = true) ∧ (∀ x ∈ s2.out, isOutputTok x = true) := by
  cases t with
  | Empty => exact absurd rfl ht.1
  | Stop => exact absurd rfl ht.2
  | Number q =>
      simp [convStep] at h
      rw [← h]
      refine ⟨hstk, ?_⟩
      intro x hx
      rcases List.mem_append.mp hx with hx | hx
      · exact hout x hx
      · simp at hx; subst hx; rfl
  | Constant q =>
      simp [convStep] at h
      rw [← h]
      refine ⟨hstk, ?_⟩
      intro x hx
      rcases List.mem_append.mp hx with hx | hx
      · exact hout x hx
      · simp at hx; subst hx; rfl
  | UnaryOperator ops =>
      simp [convStep] at h
      rw [← h]
      refine ⟨?_, hout⟩
      intro x hx
      rcases List.mem_cons.mp hx with hx | hx
      · subst hx; rfl
      · exact hstk x hx
  | Function fn =>
      simp [convStep] at h
      rw [← h]
      refine ⟨?_, hout⟩
      intro x hx
      rcases List.mem_cons.mp hx with hx | hx
      · subst hx; rfl
      · exact hstk x hx
  | LeftParenthesis =>
      simp [convStep] at h
      rw [← h]
      refine ⟨?_, hout⟩
      intro x hx
      rcases List.mem_cons.mp hx with hx | hx
      · subst hx; rfl
      · exact hstk x hx
  | BinaryOperator ops =>
      simp [convStep, popPrimary_eq] at h
      rw [← h]
      constructor
      · intro x hx
        rcases List.mem_cons.mp hx with hx | hx
        · subst hx; rfl
        · exact hstk x ((List.dropWhile_sublist _).mem hx)
      · intro x hx
        rcases List.mem_append.mp hx with hx | hx
        · exact hout x hx
        · exact primary_isOutputTok x ops (by
            simpa using List.mem_takeWhile_imp hx)
  | RightParenthesis =>
      simp only [convStep] at h
      rcases hp : (popToParen s.stack).2 with _ | ⟨t2, afterParen⟩ <;> rw [hp] at h
      · simp at h
      · have hpopped : ∀ x ∈ (popToParen s.stack).1, isOutputTok x = true := by
          intro x hx
          rw [popToParen_eq] at hx
          simp only at hx
          have hmem : x ∈ s.stack := (List.takeWhile_sublist _).mem hx
          have hne : x ≠ Token.LeftParenthesis := by
            have := List.mem_takeWhile_imp hx
            simpa using this
          exact stackTok_ne_LP_isOutputTok x (hstk x hmem) hne
        have hafter : ∀ x ∈ afterParen, isStackTok x = true := by
          intro x hx
          have : x ∈ (popToParen s.stack).2 := by rw [hp]; exact List.mem_cons_of_mem _ hx
          rw [popToParen_eq] at this
          simp only at this
          exact hstk x ((List.dropWhile_sublist _).mem this)
        rcases hap : afterParen with _ | ⟨t3, rest2⟩
        · rw [hap] at h
          simp at h
          rw [← h]
          refine ⟨by simp, ?_⟩
          intro x hx
          rcases List.mem_append.mp hx with hx | hx
          · exact hout x hx
          · exact hpopped x hx
        · rw [hap] at h
          cases t3
          case Function fn =>
            simp at h
            rw [← h]
            constructor
            · intro x hx
              exact hafter x (by rw [hap]; exact List.mem_cons_of_mem _ hx)
            · intro x hx
              simp only [List.append_assoc, List.mem_append] at hx
              rcases hx with hx | hx | hx
              · exact hout x hx
              · exact hpopped x hx
              · simp at hx; subst hx; rfl
          all_goals (
            simp at h
            rw [← h]
            refine ⟨fun x hx => hafter x (by rw [hap]; exact hx), fun x hx => ?_⟩
            rcases List.mem_append.mp hx with hx | hx
            · exact hout x hx
            · exact hpopped x hx)

theorem convRun_inv (ts : List Token) :
    ∀ s s2 : ConvState, noControl ts →
    (∀ x ∈ s.stack, isStackTok x = true) →
    (∀ x ∈ s.out, isOutputTok x = true) →
    convRun s ts = .ok s2 →
    (∀ x ∈ s2.stack, isStackTok x = true) ∧ (∀ x ∈ s2.out, isOutputTok x = true) := by
  induction ts with
  | nil =>
      intro s s2 _ hstk hout h
      simp [convRun] at h
      subst h
      exact ⟨hstk, hout⟩
  | cons t rest ih =>
      intro s s2 hts hstk hout h
      simp only [convRun] at h
      cases hs : convStep s t with
      | error m => rw [hs] at h; simp at h
      | ok smid =>
          rw [hs] at h
          obtain ⟨h1, h2⟩ := convStep_inv s smid t (hts t (by simp)) hstk hout hs
          exact ih smid s2 (fun x hx => hts x (List.mem_cons_of_mem t hx)) h1 h2 h

end Taz

namespace Taz

set_option linter.unnecessarySeqFocus false in
theorem binApply_error (R : RealFuns) (ops : BinaryOperator) (a b : ℚ) (m : String)
    (h : BinaryOperator.apply R ops a b = .error m) : m = "Division by zero" := by
  cases ops <;> simp only [BinaryOperator.apply] at h
  all_goals first
    | (cases h)
    | (split_ifs at h <;> simp_all)

set_option linter.unnecessarySeqFocus false in
theorem funApply_not_nonaccepted (R : RealFuns) (fn : Function) (x : ℚ) (m : String)
    (h : Function.apply R fn x = .error m) :
    m ≠ "Token non-accepted for evaluation of postfix expression" := by
  cases fn <;> simp only [Function.apply] at h <;>
    (try split_ifs at h) <;>
    (intro hc; rw [hc] at h) <;> simp_all

set_option linter.unnecessarySeqFocus false in
theorem evalStep_not_nonaccepted (R : RealFuns) (stack : List ℚ) (t : Token)
    (ht : isOutputTok t = true) (m : String)
    (h : evalStep R stack t = .error m) :
    m ≠ "Token non-accepted for evaluation of postfix expression" := by
  cases t <;> simp [isOutputTok] at ht
  case Number q => simp [evalStep] at h
  case Constant q => simp [evalStep] at h
  case UnaryOperator ops =>
      rcases stack with _ | ⟨x, rest⟩ <;> simp [evalStep] at h <;> simp [← h]
  case BinaryOperator ops =>
      rcases stack with _ | ⟨right, rest⟩
      · simp [evalStep] at h
        simp [← h]
      · rcases rest with _ | ⟨left, rest2⟩
        · simp [evalStep] at h
          simp [← h]
        · simp only [evalStep] at h
          cases ha : BinaryOperator.apply R ops left right with
          | error m2 =>
              rw [ha] at h
              simp [Except.map] at h
              rw [← h, binApply_error R ops left right m2 ha]
              simp
          | ok v => rw [ha] at h; simp [Except.map] at h
  case Function fn =>
      rcases stack with _ | ⟨arg, rest⟩
      · simp [evalStep] at h
        simp [← h]
      · simp only [evalStep] at h
        cases ha : Function.apply R fn arg with
        | error m2 =>
            rw [ha] at h
            simp [Except.map] at h
            rw [← h]
            exact funApply_not_nonaccepted R fn arg m2 ha
        | ok v => rw [ha] at h; simp [Except.map] at h

theorem evalRun_not_nonaccepted (R : RealFuns) (ts : List Token) :
    ∀ (stack : List ℚ) (m : String),
    (∀ t ∈ ts, isOutputTok t = true) →
    evalRun R stack ts = .error m →
    m ≠ "Token non-accepted for evaluation of postfix expression" := by
  induction ts with
  | nil => intro stack m _ h; simp [evalRun] at h
  | cons t rest ih =>
      intro stack m hts h
      simp only [evalRun] at h
      cases hs : evalStep R stack t with
      | error m2 =>
          rw [hs] at h
          simp at h
          rw [← h]
          exact evalStep_not_nonaccepted R stack t (hts t (by simp)) m2 hs
      | ok stack2 =>
          rw [hs] at h
          exact ih stack2 m (fun x hx => hts x (List.mem_cons_of_mem t hx)) h

/-- C10: on every successful conversion of a control-token-free infix
sequence, the returned postfix sequence contains no parenthesis token —
every output token is a `Number`, `Constant`, `UnaryOperator`,
`BinaryOperator` or `Function` — and consequently the evaluator's
`"Token non-accepted"` branch is unreachable on any successful converter
output. -/
theorem claim10_no_parentheses_in_output (ts out : List Token)
    (hts : noControl ts) (h : infixToPostfix ts = .ok out) :
    (∀ t ∈ out, isOutputTok t = true) ∧
    (∀ R : RealFuns,
      postfixEvaluation R out ≠ .err "Token non-accepted for evaluation of postfix expression") := by
  have hout : ∀ t ∈ out, isOutputTok t = true := by
    unfold infixToPostfix at h
    cases hr : convRun ⟨[], []⟩ ts with
    | error m => rw [hr] at h; simp at h
    | ok s =>
        rw [hr] at h
        obtain ⟨hstk, houts⟩ := convRun_inv ts ⟨[], []⟩ s hts (by simp) (by simp) hr
        by_cases h1 : s.stack = []
        · simp [h1] at h
          rw [← h]
          exact houts
        · simp [h1] at h
          by_cases h2 : Token.LeftParenthesis ∈ s.stack
          · simp [h2] at h
          · simp [h2] at h
            rw [← h]
            intro x hx
            rcases List.mem_append.mp hx with hx | hx
            · exact houts x hx
            · refine stackTok_ne_LP_isOutputTok x (hstk x hx) ?_
              intro hc
              subst hc
              exact h2 hx
  refine ⟨hout, ?_⟩
  intro R hc
  unfold postfixEvaluation at hc
  cases he : evalRun R [] out with
  | error m =>
      rw [he] at hc
      simp at hc
      exact evalRun_not_nonaccepted R out [] m hout he hc
  | ok stack =>
      rw [he] at hc
      cases stack <;> simp at hc

/-- Witness for C10: converting `(1)` yields `[1]`, which evaluates without
reaching the non-accepted branch. -/
theorem claim10_no_parentheses_in_output_witness :
    noControl [Token.LeftParenthesis, Token.Number 1, Token.RightParenthesis] ∧
    (∀ t ∈ [Token.Number (1 : ℚ)], isOutputTok t = true) ∧
    (∀ R : RealFuns,
      postfixEvaluation R [Token.Number 1] ≠ .err "Token non-accepted for evaluation of postfix expression") := by
  have h := claim10_no_parentheses_in_output
    [Token.LeftParenthesis, Token.Number 1, Token.RightParenthesis]
    [Token.Number 1] (by decide) rfl
  exact ⟨by decide, h.1, h.2⟩

end Taz

namespace Taz

theorem except_map_ok {α β : Type} (f : α → β) (e : Except String α) (t : β)
    (h : e.map f = .ok t) : ∃ x, e = .ok x ∧ t = f x := by
  cases e with
  | error m => simp [Except.map] at h
  | ok x =>
      simp [Except.map] at h
      exact ⟨x, rfl, h.symm⟩

theorem new_unary_ops_shape (c : Char) (t : Token)
    (h : Token.new_unary_ops c = .ok t) : ∃ u, t = Token.UnaryOperator u := by
  obtain ⟨u, _, rfl⟩ := except_map_ok _ _ _ h
  exact ⟨u, rfl⟩

theorem new_binary_ops_shape (c : Char) (t : Token)
    (h : Token.new_binary_ops c = .ok t) : ∃ b, t = Token.BinaryOperator b := by
  obtain ⟨b, _, rfl⟩ := except_map_ok _ _ _ h
  exact ⟨b, rfl⟩

theorem new_constant_shape (name : String) (t : Token)
    (h : Token.new_constant name = .ok t) : ∃ v, t = Token.Constant v := by
  obtain ⟨v, _, rfl⟩ := except_map_ok _ _ _ h
  exact ⟨v, rfl⟩

theorem new_function_shape (name : String) (t : Token)
    (h : Token.new_function name = .ok t) : ∃ fn, t = Token.Function fn := by
  obtain ⟨fn, _, rfl⟩ := except_map_ok _ _ _ h
  exact ⟨fn, rfl⟩

theorem tokenizeLoop_signsOk (fuel : Nat) :
    ∀ (cs : List Char) (first : Bool) (last : Token),
    SignsOk first last (tokenizeLoop fuel cs first last) := by
  induction fuel with
  | zero => intro cs first last; simp [tokenizeLoop, SignsOk]
  | succ fuel ih =>
      intro cs first last
      rcases cs with _ | ⟨c, cs⟩
      · simp [tokenizeLoop, SignsOk]
      · rw [tokenizeLoop]
        by_cases hws : c.isWhitespace = true
        · simpa [hws] using ih cs first last
        · simp only [hws]
          by_cases hd : c.isDigit = true
          · simp only [hd, if_true, if_false]
            cases hp : parseNum ((c :: cs).takeWhile isNumChar) with
            | none => simp [SignsOk]
            | some q =>
                refine ⟨?_, ih _ false _⟩
                intro hsign
                simp [Token.new_number, isSignTok] at hsign
          · simp only [hd, if_false]
            by_cases hop : (BinaryOperator.is_ops c || UnaryOperator.is_ops c) = true
            · simp only [hop, if_true]
              by_cases hcond : (first || decide (last = Token.LeftParenthesis)) = true
              · simp only [hcond, if_true]
                cases hu : Token.new_unary_ops c with
                | error m => simp [SignsOk]
                | ok t =>
                    obtain ⟨u, rfl⟩ := new_unary_ops_shape c t hu
                    refine ⟨fun _ => ?_, ih _ false _⟩
                    simp only [Bool.or_eq_true, decide_eq_true_eq] at hcond
                    simp [hcond]
              · simp only [hcond, if_false]
                cases hb : Token.new_binary_ops c with
                | error m => simp [SignsOk]
                | ok t =>
                    obtain ⟨b, rfl⟩ := new_binary_ops_shape c t hb
                    refine ⟨fun _ => ?_, ih _ false _⟩
                    simp only [Bool.or_eq_true, decide_eq_true_eq] at hcond
                    constructor
                    · rintro ⟨u, hu2⟩
                      cases hu2
                    · intro hor
                      exact absurd hor hcond
            · simp only [hop, if_false]
              by_cases hlp : c = '('
              · subst hlp
                simp only [if_pos rfl]
                exact ⟨by simp [isSignTok], ih _ false _⟩
              · rw [if_neg hlp]
                by_cases hrp : c = ')'
                · subst hrp
                  simp only [if_pos rfl]
                  exact ⟨by simp [isSignTok], ih _ false _⟩
                · rw [if_neg hrp]
                  by_cases han : c.isAlphanum = true
                  · simp only [han, if_true]
                    by_cases hic : is_constant (String.mk ((c :: cs).takeWhile isWordChar)) = true
                    · simp only [hic, if_true]
                      cases hcst : Token.new_constant (String.mk ((c :: cs).takeWhile isWordChar)) with
                      | error m => simp [SignsOk]
                      | ok t =>
                          obtain ⟨v, rfl⟩ := new_constant_shape _ t hcst
                          exact ⟨by simp [isSignTok], ih _ false _⟩
                    · simp only [hic, if_false]
                      by_cases hif : Function.is_fun (String.mk ((c :: cs).takeWhile isWordChar)) = true
                      · simp only [hif, if_true]
                        cases hfn : Token.new_function (String.mk ((c :: cs).takeWhile isWordChar)) with
                        | error m => simp [SignsOk]
                        | ok t =>
                            obtain ⟨fn, rfl⟩ := new_function_shape _ t hfn
                            exact ⟨by simp [isSignTok], ih _ false _⟩
                      · simp [hif, SignsOk]
                  · simp [han, SignsOk]

theorem signsOk_index (ts : List Token) :
    ∀ (first : Bool) (last : Token), SignsOk first last ts →
    ∀ (i : Nat) (t : Token), ts[i]? = some t → isSignTok t = true →
    ((∃ u, t = Token.UnaryOperator u) ↔
      (if i = 0 then (first = true ∨ last = Token.LeftParenthesis)
       else ts[i - 1]? = some Token.LeftParenthesis)) := by
  induction ts with
  | nil => intro first last _ i t hget; simp at hget
  | cons t0 rest ih =>
      intro first last h i t hget hsign
      obtain ⟨h0, hrest⟩ := h
      rcases i with _ | j
      · simp at hget
        subst hget
        simpa using h0 hsign
      · simp only [List.getElem?_cons_succ] at hget
        have := ih false t0 hrest j t hget hsign
        rcases j with _ | k
        · simp at this ⊢
          simpa using this
        · simp only [Nat.succ_sub_one] at this ⊢
          simp at this ⊢
          exact this

/-- C5: in any token list produced by `tokenize`, a `+`/`-` operator token
is a `UnaryOperator` exactly when it is the first token of the whole
expression or the immediately preceding emitted token was
`LeftParenthesis`; in every other position it is a `BinaryOperator`. -/
theorem claim5_unary_disambiguation (s : String) (ts : List Token)
    (h : tokenize s = .ok ts) (i : Nat) (t : Token)
    (hget : ts[i]? = some t) (hsign : isSignTok t = true) :
    (∃ u, t = Token.UnaryOperator u) ↔
      (i = 0 ∨ ts[i - 1]? = some Token.LeftParenthesis) := by
  have hts : ts = tokenizeLoop (s.data.length + 1) s.data true Token.Empty := by
    simpa [tokenize] using h.symm
  have hok := tokenizeLoop_signsOk (s.data.length + 1) s.data true Token.Empty
  rw [← hts] at hok
  have := signsOk_index ts true Token.Empty hok i t hget hsign
  rcases hi : i with _ | j
  · rw [hi] at this
    simp at this
    simp [this]
  · rw [hi] at this
    simpa using this

/-- Witness for C5 on `"-(1) + (-2)"`: the leading sign (position 0) is
unary and the sign at position 6, immediately after `(`, is unary. -/
theorem claim5_unary_disambiguation_witness :
    tokenize "-(1) + (-2)" = .ok
      [Token.UnaryOperator UnaryOperator.Minus, Token.LeftParenthesis,
       Token.Number 1, Token.RightParenthesis,
       Token.BinaryOperator BinaryOperator.Plus, Token.LeftParenthesis,
       Token.UnaryOperator UnaryOperator.Minus, Token.Number 2,
       Token.RightParenthesis] ∧
    ((∃ u, Token.UnaryOperator UnaryOperator.Minus = Token.UnaryOperator u) ↔
      ((6 : Nat) = 0 ∨
        ([Token.UnaryOperator UnaryOperator.Minus, Token.LeftParenthesis,
          Token.Number 1, Token.RightParenthesis,
          Token.BinaryOperator BinaryOperator.Plus, Token.LeftParenthesis,
          Token.UnaryOperator UnaryOperator.Minus, Token.Number 2,
          Token.RightParenthesis] : List Token)[6 - 1]? = some Token.LeftParenthesis)) := by
  have ht : tokenize "-(1) + (-2)" = .ok
      [Token.UnaryOperator UnaryOperator.Minus, Token.LeftParenthesis,
       Token.Number 1, Token.RightParenthesis,
       Token.BinaryOperator BinaryOperator.Plus, Token.LeftParenthesis,
       Token.UnaryOperator UnaryOperator.Minus, Token.Number 2,
       Token.RightParenthesis] := rfl
  exact ⟨ht, claim5_unary_disambiguation "-(1) + (-2)" _ ht 6
    (Token.UnaryOperator UnaryOperator.Minus) rfl rfl⟩

end Taz

namespace Taz

/-- C6: `apply` fails exactly on the spec's domain table, and returns the
mathematical result otherwise: `Divide` errs iff the right operand is `0`
(message `"Division by zero"`); `Sqrt` errs iff its argument is `< 0`;
`Ln`/`Log10`/`Log2` err iff `≤ 0`; `Asin`/`Acos` err iff the argument is
outside `[-1, 1]`; `Tan` errs iff `(argument − π/2) mod π = 0` (with the
`f64` constants and Rust's truncated remainder); every other operator and
function never errs. -/
theorem exists_error_ite (c : Prop) [Decidable c] (v : ℚ) (msg : String) :
    (∃ m, (if c then Except.ok v else Except.error msg) = .error m) ↔ ¬ c := by
  split_ifs with h <;> simp [h]

theorem exists_error_ite2 (c : Prop) [Decidable c] (v : ℚ) (msg : String) :
    (∃ m, (if c then Except.error msg else Except.ok v) = .error m) ↔ c := by
  split_ifs with h <;> simp [h]

theorem claim6_domain_checks (R : RealFuns) (fn : Function)
    (ops : BinaryOperator) (x a b : ℚ) :
    ((∃ m, Function.apply R fn x = .error m) ↔ specFunDomainErr fn x = true) ∧
    (specFunDomainErr fn x = false →
      Function.apply R fn x = .ok (specFunValue R fn x)) ∧
    ((∃ m, BinaryOperator.apply R ops a b = .error m) ↔ (ops = .Divide ∧ b = 0)) ∧
    (ops = .Divide → b = 0 →
      BinaryOperator.apply R ops a b = .error "Division by zero") ∧
    (¬(ops = .Divide ∧ b = 0) →
      BinaryOperator.apply R ops a b = .ok (specBinValue R ops a b)) := by
  refine ⟨?_, ?_, ?_, ?_, ?_⟩
  · cases fn <;>
      simp [Function.apply, specFunDomainErr, exists_error_ite, exists_error_ite2,
        not_le, not_lt, not_and_or, not_not]
    all_goals (
      constructor
      · intro h1
        by_cases hle : -1 ≤ x
        · exact Or.inr (h1 hle)
        · exact Or.inl (not_le.mp hle)
      · rintro (h2 | h2) h3
        · exact absurd h3 (not_le.mpr h2)
        · exact h2)
  · intro hfalse
    cases fn <;>
      simp only [specFunDomainErr, decide_eq_false_iff_not, not_lt, not_le,
        Bool.or_eq_false_iff] at hfalse <;>
      simp_all [Function.apply, specFunValue, not_le, not_lt]
  · cases ops <;>
      simp [BinaryOperator.apply, exists_error_ite, exists_error_ite2, not_not]
  · rintro rfl rfl
    simp [BinaryOperator.apply]
  · intro hne
    cases ops <;> simp only [BinaryOperator.apply, specBinValue]
    case Divide =>
      simp only [ne_eq]
      have hb : ¬ b = 0 := fun hb => hne ⟨rfl, hb⟩
      simp [hb]

/-- Witness for C6: `sqrt` succeeds on `4` and `1/0` is rejected. -/
theorem claim6_domain_checks_witness :
    specFunDomainErr Function.Sqrt 4 = false ∧
    Function.apply mathR Function.Sqrt 4 = .ok (specFunValue mathR Function.Sqrt 4) ∧
    BinaryOperator.apply mathR BinaryOperator.Divide 1 0 = .error "Division by zero" := by
  refine ⟨by decide, ?_, ?_⟩
  · exact (claim6_domain_checks mathR Function.Sqrt BinaryOperator.Divide 4 1 0).2.1
      (by decide)
  · exact (claim6_domain_checks mathR Function.Sqrt BinaryOperator.Divide 4 1 0).2.2.2.1
      rfl rfl

end Taz

namespace Taz

/-! ## Shunting-yard correctness (C1) -/

theorem assoc_of_precedence (b1 b2 : BinaryOperator)
    (h : b1.precedence = b2.precedence) :
    b1.is_left_associative = b2.is_left_associative := by
  cases b1 <;> cases b2 <;>
    first
      | rfl
      | (simp [BinaryOperator.precedence] at h)

theorem primary_of_ge (b ops : BinaryOperator)
    (hge : ops.precedence ≤ b.precedence)
    (hla : ops.is_left_associative = true) :
    last_operator_is_primary (Token.BinaryOperator b) ops = true := by
  simp only [last_operator_is_primary]
  rcases Nat.lt_or_ge ops.precedence b.precedence with hlt | hle
  · simp [hlt]
  · have : b.precedence = ops.precedence := Nat.le_antisymm hle hge
    simp [this, hla]

theorem primary_of_gt (b ops : BinaryOperator)
    (hgt : ops.precedence < b.precedence) :
    last_operator_is_primary (Token.BinaryOperator b) ops = true := by
  simp [last_operator_is_primary, hgt]

theorem not_primary_of_lt (b ops : BinaryOperator)
    (hlt : b.precedence < ops.precedence) :
    last_operator_is_primary (Token.BinaryOperator b) ops = false := by
  simp only [last_operator_is_primary]
  have h1 : ¬ ops.precedence < b.precedence := by omega
  have h2 : ¬ b.precedence = ops.precedence := by omega
  simp [h1, h2]

theorem not_primary_of_eq_ra (b ops : BinaryOperator)
    (heq : b.precedence = ops.precedence)
    (hra : b.is_left_associative = false) :
    last_operator_is_primary (Token.BinaryOperator b) ops = false := by
  have hra2 : ops.is_left_associative = false := by
    rw [← assoc_of_precedence b ops heq, hra]
  simp [last_operator_is_primary, heq, hra2]

theorem popPrimary_pend (ops : BinaryOperator) (pend stk : List Token)
    (hpend : ∀ t ∈ pend, last_operator_is_primary t ops = true)
    (hstk : ∀ t, stk.head? = some t → last_operator_is_primary t ops = false) :
    popPrimary ops (pend ++ stk) = (pend, stk) := by
  induction pend with
  | nil =>
      rcases stk with _ | ⟨s0, ss⟩
      · rfl
      · simp [popPrimary, hstk s0 rfl]
  | cons t rest ih =>
      have ht := hpend t (by simp)
      simp [popPrimary, ht, ih (fun x hx => hpend x (List.mem_cons_of_mem t hx))]

theorem popToParen_pend (pend stk : List Token)
    (hpend : ∀ t ∈ pend, t ≠ Token.LeftParenthesis) :
    popToParen (pend ++ Token.LeftParenthesis :: stk) =
      (pend, Token.LeftParenthesis :: stk) := by
  induction pend with
  | nil => simp [popToParen]
  | cons t rest ih =>
      have ht := hpend t (by simp)
      simp [popToParen, ht, ih (fun x hx => hpend x (List.mem_cons_of_mem t hx))]

end Taz

namespace Taz

theorem convRun_parses {l : Nat} {ts : List Token} {e : Expr} (hp : Parses l ts e) :
    ∀ (out stk : List Token),
    (∀ t ∈ stk, t = Token.LeftParenthesis ∨ ∃ b, t = Token.BinaryOperator b) →
    (∀ t, stk.head? = some t → ∀ ops : BinaryOperator,
      l ≤ ops.precedence → last_operator_is_primary t ops = false) →
    ∃ emitted pend,
      convRun ⟨out, stk⟩ ts = .ok ⟨out ++ emitted, pend ++ stk⟩ ∧
      emitted ++ pend = rpnOf e ∧
      (∀ t ∈ pend, ∃ b, t = Token.BinaryOperator b ∧ l ≤ b.precedence) := by
  induction hp with
  | num q =>
      intro out stk hstk hbar
      refine ⟨[Token.Number q], [], ?_, rfl, by simp⟩
      simp [convRun, convStep]
  | @paren ts0 e0 hinner ih =>
      intro out stk hstk hbar
      have hstk2 : ∀ t ∈ Token.LeftParenthesis :: stk,
          t = Token.LeftParenthesis ∨ ∃ b, t = Token.BinaryOperator b := by
        intro t htm
        rcases List.mem_cons.mp htm with rfl | htm
        · exact Or.inl rfl
        · exact hstk t htm
      have hbar2 : ∀ t, (Token.LeftParenthesis :: stk).head? = some t →
          ∀ ops : BinaryOperator, 2 ≤ ops.precedence →
          last_operator_is_primary t ops = false := by
        intro t ht ops _
        simp at ht
        subst ht
        rfl
      obtain ⟨emitted, pend, hrun, hcat, hpend⟩ := ih out (Token.LeftParenthesis :: stk) hstk2 hbar2
      have hpendLP : ∀ t ∈ pend, t ≠ Token.LeftParenthesis := by
        intro t htm
        obtain ⟨b, rfl, _⟩ := hpend t htm
        simp
      refine ⟨emitted ++ pend, [], ?_, by simpa using hcat, by simp⟩
      have hstep1 : convRun (⟨out, stk⟩ : ConvState)
          (Token.LeftParenthesis :: (ts0 ++ [Token.RightParenthesis])) =
          convRun ⟨out, Token.LeftParenthesis :: stk⟩ (ts0 ++ [Token.RightParenthesis]) := by
        simp [convRun, convStep]
      rw [List.cons_append, hstep1, convRun_append, hrun]
      have hpop := popToParen_pend pend stk hpendLP
      rcases stk with _ | ⟨s0, ss⟩
      · simp [convRun, convStep, hpop]
      · rcases hstk s0 (by simp) with rfl | ⟨b, rfl⟩ <;>
          simp [convRun, convStep, hpop]
  | @up l2 ts0 e0 hinner ih =>
      intro out stk hstk hbar
      have hbar2 : ∀ t, stk.head? = some t → ∀ ops : BinaryOperator,
          l2 + 1 ≤ ops.precedence → last_operator_is_primary t ops = false :=
        fun t ht ops hle => hbar t ht ops (Nat.le_of_succ_le hle)
      obtain ⟨emitted, pend, hrun, hcat, hpend⟩ := ih out stk hstk hbar2
      refine ⟨emitted, pend, hrun, hcat, ?_⟩
      intro t htm
      obtain ⟨b, hb, hble⟩ := hpend t htm
      exact ⟨b, hb, Nat.le_of_succ_le hble⟩
  | @binL l2 ts1 e1 ts2 e2 ops hp1 hprec hla hp2 ih1 ih2 =>
      intro out stk hstk hbar
      obtain ⟨em1, pend1, h1run, h1cat, h1pend⟩ := ih1 out stk hstk hbar
      have hpend_primary : ∀ t ∈ pend1, last_operator_is_primary t ops = true := by
        intro t htm
        obtain ⟨b, rfl, hble⟩ := h1pend t htm
        rcases Nat.lt_or_ge l2 b.precedence with hlt | hge
        · exact primary_of_gt b ops (by omega)
        · exact primary_of_ge b ops (by omega) hla
      have hstk_np : ∀ t, stk.head? = some t →
          last_operator_is_primary t ops = false :=
        fun t ht => hbar t ht ops (by omega)
      have hstep : convStep ⟨out ++ em1, pend1 ++ stk⟩ (Token.BinaryOperator ops) =
          .ok ⟨out ++ rpnOf e1, Token.BinaryOperator ops :: stk⟩ := by
        simp [convStep, popPrimary_pend ops pend1 stk hpend_primary hstk_np, ← h1cat]
      have hstk2 : ∀ t ∈ Token.BinaryOperator ops :: stk,
          t = Token.LeftParenthesis ∨ ∃ b, t = Token.BinaryOperator b := by
        intro t htm
        rcases List.mem_cons.mp htm with rfl | htm
        · exact Or.inr ⟨ops, rfl⟩
        · exact hstk t htm
      have hbar2 : ∀ t, (Token.BinaryOperator ops :: stk).head? = some t →
          ∀ ops2 : BinaryOperator, l2 + 1 ≤ ops2.precedence →
          last_operator_is_primary t ops2 = false := by
        intro t ht ops2 hle
        simp at ht
        subst ht
        exact not_primary_of_lt ops ops2 (by omega)
      obtain ⟨em2, pend2, h2run, h2cat, h2pend⟩ :=
        ih2 (out ++ rpnOf e1) (Token.BinaryOperator ops :: stk) hstk2 hbar2
      refine ⟨rpnOf e1 ++ em2, pend2 ++ [Token.BinaryOperator ops], ?_, ?_, ?_⟩
      · rw [convRun_append, h1run]
        simp only [convRun, hstep, h2run]
        simp
      · simp only [rpnOf, ← h2cat]
        simp
      · intro t htm
        rcases List.mem_append.mp htm with htm | htm
        · obtain ⟨b, hb, hble⟩ := h2pend t htm
          exact ⟨b, hb, by omega⟩
        · simp at htm
          subst htm
          exact ⟨ops, rfl, by omega⟩
  | @binR l2 ts1 e1 ts2 e2 ops hp1 hprec hla hp2 ih1 ih2 =>
      intro out stk hstk hbar
      have hbar1 : ∀ t, stk.head? = some t → ∀ ops2 : BinaryOperator,
          l2 + 1 ≤ ops2.precedence → last_operator_is_primary t ops2 = false :=
        fun t ht ops2 hle => hbar t ht ops2 (Nat.le_of_succ_le hle)
      obtain ⟨em1, pend1, h1run, h1cat, h1pend⟩ := ih1 out stk hstk hbar1
      have hpend_primary : ∀ t ∈ pend1, last_operator_is_primary t ops = true := by
        intro t htm
        obtain ⟨b, rfl, hble⟩ := h1pend t htm
        exact primary_of_gt b ops (by omega)
      have hstk_np : ∀ t, stk.head? = some t →
          last_operator_is_primary t ops = false :=
        fun t ht => hbar t ht ops (by omega)
      have hstep : convStep ⟨out ++ em1, pend1 ++ stk⟩ (Token.BinaryOperator ops) =
          .ok ⟨out ++ rpnOf e1, Token.BinaryOperator ops :: stk⟩ := by
        simp [convStep, popPrimary_pend ops pend1 stk hpend_primary hstk_np, ← h1cat]
      have hstk2 : ∀ t ∈ Token.BinaryOperator ops :: stk,
          t = Token.LeftParenthesis ∨ ∃ b, t = Token.BinaryOperator b := by
        intro t htm
        rcases List.mem_cons.mp htm with rfl | htm
        · exact Or.inr ⟨ops, rfl⟩
        · exact hstk t htm
      have hbar2 : ∀ t, (Token.BinaryOperator ops :: stk).head? = some t →
          ∀ ops2 : BinaryOperator, l2 ≤ ops2.precedence →
          last_operator_is_primary t ops2 = false := by
        intro t ht ops2 hle
        simp at ht
        subst ht
        rcases Nat.lt_or_ge l2 ops2.precedence with hlt | hge
        · exact not_primary_of_lt ops ops2 (by omega)
        · exact not_primary_of_eq_ra ops ops2 (by omega) hla
      obtain ⟨em2, pend2, h2run, h2cat, h2pend⟩ :=
        ih2 (out ++ rpnOf e1) (Token.BinaryOperator ops :: stk) hstk2 hbar2
      refine ⟨rpnOf e1 ++ em2, pend2 ++ [Token.BinaryOperator ops], ?_, ?_, ?_⟩
      · rw [convRun_append, h1run]
        simp only [convRun, hstep, h2run]
        simp
      · simp only [rpnOf, ← h2cat]
        simp
      · intro t htm
        rcases List.mem_append.mp htm with htm | htm
        · obtain ⟨b, hb, hble⟩ := h2pend t htm
          exact ⟨b, hb, hble⟩
        · simp at htm
          subst htm
          exact ⟨ops, rfl, by omega⟩

end Taz

namespace Taz

theorem infixToPostfix_parses {ts : List Token} {e : Expr} (hp : Parses 2 ts e) :
    infixToPostfix ts = .ok (rpnOf e) := by
  obtain ⟨emitted, pend, hrun, hcat, hpend⟩ :=
    convRun_parses hp [] [] (by simp) (by simp)
  unfold infixToPostfix
  simp only [List.append_nil, List.nil_append] at hrun
  rw [hrun]
  rcases hpd : pend with _ | ⟨p0, ps⟩
  · simp only [hpd] at hcat
    simp [← hcat]
  · have hnoLP : Token.LeftParenthesis ∉ pend := by
      intro hmem
      obtain ⟨b, hb, _⟩ := hpend _ hmem
      cases hb
    rw [hpd] at hnoLP
    simp [hnoLP, ← hcat, hpd]

theorem evalRun_rpn (R : RealFuns) (e : Expr) :
    ∀ (stack : List ℚ) (rest : List Token),
    evalRun R stack (rpnOf e ++ rest) =
      match directEval R e with
      | .error m => .error m
      | .ok v => evalRun R (v :: stack) rest := by
  induction e with
  | num q => intro stack rest; simp [rpnOf, directEval, evalRun, evalStep]
  | bin ops left right ihl ihr =>
      intro stack rest
      rw [rpnOf, directEval]
      rw [List.append_assoc, List.append_assoc]
      rw [ihl]
      cases hl : directEval R left with
      | error m => rfl
      | ok a =>
          dsimp only
          rw [ihr]
          cases hr : directEval R right with
          | error m => rfl
          | ok b =>
              dsimp only
              simp only [List.singleton_append, evalRun, evalStep]
              cases ha : BinaryOperator.apply R ops a b with
              | error m => simp [Except.map]
              | ok v => simp [Except.map]

theorem postfixEvaluation_rpn (R : RealFuns) (e : Expr) :
    postfixEvaluation R (rpnOf e) = toEvalResult (directEval R e) := by
  unfold postfixEvaluation
  have h := evalRun_rpn R e [] []
  rw [List.append_nil] at h
  rw [h]
  cases hd : directEval R e with
  | error m => rfl
  | ok v => simp [evalRun, toEvalResult]

end Taz

namespace Taz

/-- C1: for every input string whose token sequence is a balanced infix
expression built only from numeric literals, parentheses and the binary
operators (formalized by `Parses 2`, the precedence-2 entry point of the
standard grammar with `^` right-associative, the others left-associative,
and `*` `/` binding tighter than `+` `-`), `evaluate` returns `Ok` of the
value obtained by direct recursive evaluation `directEval`; in particular
`evaluate "3 + 4 * 2 / (1 - 5) ^ 2 ^ 3"` returns exactly
`24577/8192 = 3.0001220703125 ≈ 3.000122` (every intermediate value of
this instance is exactly representable in `f64`, so the exact rational
model agrees with the floating-point run). -/
theorem claim1_standard_precedence :
    (∀ (R : RealFuns) (s : String) (ts : List Token) (e : Expr) (v : ℚ),
      tokenize s = .ok ts → Parses 2 ts e → directEval R e = .ok v →
      evaluate R s = .ok v) ∧
    evaluate mathR "3 + 4 * 2 / (1 - 5) ^ 2 ^ 3" = .ok (24577 / 8192) := by
  constructor
  · intro R s ts e v ht hp hd
    unfold evaluate
    rw [ht]
    dsimp only
    rw [infixToPostfix_parses hp]
    dsimp only
    rw [postfixEvaluation_rpn, hd]
    rfl
  · have ht : tokenize "3 + 4 * 2 / (1 - 5) ^ 2 ^ 3" = .ok
        [Token.Number 3, Token.BinaryOperator BinaryOperator.Plus, Token.Number 4,
         Token.BinaryOperator BinaryOperator.Multiply, Token.Number 2,
         Token.BinaryOperator BinaryOperator.Divide, Token.LeftParenthesis, Token.Number 1,
         Token.BinaryOperator BinaryOperator.Minus, Token.Number 5, Token.RightParenthesis,
         Token.BinaryOperator BinaryOperator.Power, Token.Number 2,
         Token.BinaryOperator BinaryOperator.Power, Token.Number 3] := rfl
    have hc : infixToPostfix
        [Token.Number 3, Token.BinaryOperator BinaryOperator.Plus, Token.Number 4,
         Token.BinaryOperator BinaryOperator.Multiply, Token.Number 2,
         Token.BinaryOperator BinaryOperator.Divide, Token.LeftParenthesis, Token.Number 1,
         Token.BinaryOperator BinaryOperator.Minus, Token.Number 5, Token.RightParenthesis,
         Token.BinaryOperator BinaryOperator.Power, Token.Number 2,
         Token.BinaryOperator BinaryOperator.Power, Token.Number 3] = .ok
        [Token.Number 3, Token.Number 4, Token.Number 2,
         Token.BinaryOperator BinaryOperator.Multiply, Token.Number 1, Token.Number 5,
         Token.BinaryOperator BinaryOperator.Minus, Token.Number 2, Token.Number 3,
         Token.BinaryOperator BinaryOperator.Power, Token.BinaryOperator BinaryOperator.Power,
         Token.BinaryOperator BinaryOperator.Divide, Token.BinaryOperator BinaryOperator.Plus] := rfl
    have he : postfixEvaluation mathR
        [Token.Number 3, Token.Number 4, Token.Number 2,
         Token.BinaryOperator BinaryOperator.Multiply, Token.Number 1, Token.Number 5,
         Token.BinaryOperator BinaryOperator.Minus, Token.Number 2, Token.Number 3,
         Token.BinaryOperator BinaryOperator.Power, Token.BinaryOperator BinaryOperator.Power,
         Token.BinaryOperator BinaryOperator.Divide, Token.BinaryOperator BinaryOperator.Plus] =
        EvalResult.ok (24577 / 8192) := by
      norm_num [postfixEvaluation, evalRun, evalStep, BinaryOperator.apply,
        UnaryOperator.apply, mathR, qzpow, Except.map]
      simp
      norm_num
    simp only [evaluate, ht, hc, he]

/-- Witness for C1 on `"1 + 2"`: its token list parses at level 2 as
`1 + 2`, whose direct evaluation succeeds, so the pipeline returns the same
value. -/
theorem claim1_standard_precedence_witness :
    tokenize "1 + 2" = .ok
      [Token.Number 1, Token.BinaryOperator BinaryOperator.Plus, Token.Number 2] ∧
    Parses 2
      [Token.Number 1, Token.BinaryOperator BinaryOperator.Plus, Token.Number 2]
      (Expr.bin BinaryOperator.Plus (Expr.num 1) (Expr.num 2)) ∧
    directEval mathR (Expr.bin BinaryOperator.Plus (Expr.num 1) (Expr.num 2)) =
      .ok (1 + 2) ∧
    evaluate mathR "1 + 2" = .ok (1 + 2) := by
  have hp : Parses 2
      [Token.Number 1, Token.BinaryOperator BinaryOperator.Plus, Token.Number 2]
      (Expr.bin BinaryOperator.Plus (Expr.num 1) (Expr.num 2)) :=
    Parses.binL BinaryOperator.Plus
      (Parses.up (Parses.up (Parses.up (Parses.num 1)))) rfl rfl
      (Parses.up (Parses.up (Parses.num 2)))
  exact ⟨rfl, hp, rfl,
    claim1_standard_precedence.1 mathR "1 + 2"
      [Token.Number 1, Token.BinaryOperator BinaryOperator.Plus, Token.Number 2]
      (Expr.bin BinaryOperator.Plus (Expr.num 1) (Expr.num 2)) (1 + 2) rfl hp rfl⟩

end Taz
